import Mathlib

/-!
Verification development for the beaver log shipper.

The repository ships only its packaging script (src/setup.py); the core
components named by the design document — File Watcher, Line Queue,
Transport, Delivery Coordinator, Position Store — are not present under
src/, so they are modelled here from the specification text and the
properties are settled against those models.  The packaging script itself
is embedded directly from src/setup.py.

Bytes are modelled as natural numbers; the newline terminator is byte 10.
-/

namespace Beaver

/-- The line terminator byte. -/
def newline : Nat := 10

/-- Modelled from the spec: the File Watcher "splits the delta into
discrete lines (newline-delimited; a trailing partial line without a
terminator is held back ...)".  Returns the list of complete
(terminator-delimited) lines, without their terminators, together with the
trailing partial line. -/
def splitLines : List Nat → List (List Nat) × List Nat
  | [] => ([], [])
  | b :: rest =>
    let p := splitLines rest
    if b = newline then ([] :: p.1, p.2)
    else
      match p.1 with
      | [] => ([], b :: p.2)
      | l :: ls => ((b :: l) :: ls, p.2)

/-- The complete lines of a byte buffer. -/
def completeLines (buf : List Nat) : List (List Nat) := (splitLines buf).1

/-- The trailing partial line of a byte buffer. -/
def remainder (buf : List Nat) : List Nat := (splitLines buf).2

/-- Modelled from the spec: a LineRecord carries the "originating
WatchedFile identity, byte offset range covered, line content".  The
arrival timestamp and static tags play no role in any property and are
omitted. -/
structure LineRecord where
  fileId : Nat
  startOff : Nat
  endOff : Nat
  content : List Nat
deriving DecidableEq, Repr

/-- Modelled from the spec: a WatchedFile holds a stable identity, the
last-read offset, and the held-back trailing partial line (the bytes read
past the last emitted terminator).  The pending bytes occupy the file
range just before the offset. -/
structure WatchedFile where
  ident : Nat
  offset : Nat
  pending : List Nat
deriving DecidableEq, Repr

/-- A snapshot of the file currently designated by a watched path: its
stable identity and its content (size is the content length). -/
structure FileView where
  ident : Nat
  content : List Nat
deriving DecidableEq, Repr

/-- Builds one LineRecord per complete line, assigning consecutive byte
ranges; each complete line occupies its bytes plus one terminator byte. -/
def mkRecords (id : Nat) : Nat → List (List Nat) → List LineRecord
  | _, [] => []
  | start, l :: ls =>
    ⟨id, start, start + l.length + 1, l⟩ :: mkRecords id (start + l.length + 1) ls

/-- Modelled from the spec: "If the file has grown since last check, reads
from the last offset to the new end, splits the delta into discrete lines
(newline-delimited; a trailing partial line without a terminator is held
back and prefixed to the next read rather than emitted), and emits one
LineRecord per complete line." -/
def readDelta (wf : WatchedFile) (fv : FileView) : WatchedFile × List LineRecord :=
  let delta := fv.content.drop wf.offset
  let p := splitLines (wf.pending ++ delta)
  (⟨wf.ident, fv.content.length, p.2⟩,
   mkRecords wf.ident (wf.offset - wf.pending.length) p.1)

/-- Modelled from the spec: on rotation or truncation the watcher "treats
it as a new WatchedFile" beginning "at offset 0 on the new identity". -/
def resetForNewIdentity (newIdent : Nat) : WatchedFile := ⟨newIdent, 0, []⟩

/-- Modelled from the spec: one polling check of a watched path.  If the
path's identity changed (rotation), flushes the pending complete lines of
the old identity (still readable through the old handle, given as
oldView), discards the old handle and state, and reads the new identity
from offset 0.  If the file shrank (truncation), treats it as a new
WatchedFile at offset 0.  Otherwise reads the growth delta. -/
def watcherCheck (wf : WatchedFile) (oldView fv : FileView) :
    WatchedFile × List LineRecord :=
  if fv.ident ≠ wf.ident then
    let flush := splitLines (wf.pending ++ oldView.content.drop wf.offset)
    let flushed := mkRecords wf.ident (wf.offset - wf.pending.length) flush.1
    let r := readDelta (resetForNewIdentity fv.ident) fv
    (r.1, flushed ++ r.2)
  else if fv.content.length < wf.offset then
    readDelta (resetForNewIdentity fv.ident) fv
  else
    readDelta wf fv

/-- The contents of a list of emitted records, in order. -/
def emitted (recs : List LineRecord) : List (List Nat) := recs.map LineRecord.content

/-- Modelled from the spec: a sequence of appends to a watched file, each
followed by a watcher read of the grown file.  Returns all records emitted
in order and the final watcher state. -/
def watchAppends (id : Nat) : WatchedFile → List Nat → List (List Nat) →
    List LineRecord × WatchedFile
  | wf, _, [] => ([], wf)
  | wf, content, a :: as =>
    let r := readDelta wf ⟨id, content ++ a⟩
    let rest := watchAppends id r.1 (content ++ a) as
    (r.2 ++ rest.1, rest.2)

/-- Modelled from the spec: the Line Queue overflow policy — "Enqueue
blocks (or drops oldest, per configured overflow policy) when full". -/
inductive OverflowPolicy where
  | block
  | dropOldest
deriving DecidableEq, Repr

/-- Modelled from the spec: "A bounded, ordered, multi-producer
single-consumer buffer" with a configured capacity and overflow policy. -/
structure LineQueue where
  capacity : Nat
  policy : OverflowPolicy
  buf : List LineRecord
deriving Repr

/-- An empty queue with the given capacity and overflow policy. -/
def LineQueue.empty (cap : Nat) (pol : OverflowPolicy) : LineQueue := ⟨cap, pol, []⟩

/-- Modelled from the spec: enqueue appends at the back; when the queue is
full the producer either blocks (the queue is unchanged for this step) or
the oldest record is dropped to make room, per the overflow policy. -/
def enqueue (q : LineQueue) (r : LineRecord) : LineQueue :=
  if q.buf.length < q.capacity then ⟨q.capacity, q.policy, q.buf ++ [r]⟩
  else
    match q.policy with
    | .block => q
    | .dropOldest => ⟨q.capacity, q.policy, q.buf.tail ++ [r]⟩

/-- Modelled from the spec: dequeue takes the oldest record; "Dequeue
blocks until at least one record is available" — blocking is modelled as
the none result on an empty queue. -/
def dequeue (q : LineQueue) : Option (LineRecord × LineQueue) :=
  match q.buf with
  | [] => none
  | r :: rest => some (r, ⟨q.capacity, q.policy, rest⟩)

/-- Enqueues a list of records in order. -/
def enqueueAll (q : LineQueue) (rs : List LineRecord) : LineQueue :=
  rs.foldl enqueue q

/-- Repeated dequeuing, fuelled. -/
def drainAux : Nat → LineQueue → List LineRecord
  | 0, _ => []
  | n + 1, q =>
    match dequeue q with
    | none => []
    | some (r, q2) => r :: drainAux n q2

/-- Everything the single consumer obtains by dequeuing until empty. -/
def drain (q : LineQueue) : List LineRecord := drainAux q.buf.length q

/-- Modelled from the spec: the three-way Transport result — "Returns
Delivered, TransientFailure (retry eligible), or PermanentFailure". -/
inductive DeliveryResult where
  | delivered
  | transientFailure
  | permanentFailure
deriving DecidableEq, Repr

/-- Modelled from the spec: a Batch is "an ordered sequence of LineRecords
grouped for one delivery attempt, plus retry count and next-eligible-retry
time". -/
structure Batch where
  records : List LineRecord
  retryCount : Nat
  nextRetry : Nat
deriving DecidableEq, Repr

/-- Modelled from the spec: retry/backoff bounds — a base delay and the
configured upper bound (cap) of the exponential backoff.  The spec also
mentions jitter; randomness is outside the deterministic model, so the
delays here are the undithered exponential schedule. -/
structure BackoffConfig where
  base : Nat
  cap : Nat
deriving DecidableEq, Repr

/-- Modelled from the spec: "exponential backoff with an upper bound" —
the delay scheduled before retry number r. -/
def backoffDelay (cfg : BackoffConfig) (r : Nat) : Nat :=
  min (cfg.base * 2 ^ r) cfg.cap

/-- Whether the batch touches the given WatchedFile identity. -/
def Batch.touches (b : Batch) (id : Nat) : Bool :=
  b.records.any (fun r => r.fileId == id)

/-- The maximum offset the batch covers for the given identity. -/
def Batch.maxOffset (b : Batch) (id : Nat) : Nat :=
  b.records.foldl (fun m r => if r.fileId == id then max m r.endOff else m) 0

/-- Modelled from the spec: the Position Store commit on confirmed
delivery — "commits the Position Store update for every WatchedFile
identity touched by the batch to the maximum offset covered". -/
def commit (store : Nat → Nat) (b : Batch) : Nat → Nat :=
  fun id => if b.touches id then b.maxOffset id else store id

/-- Modelled from the spec: the batch re-queued after a TransientFailure,
"with an incremented retry count", next eligible at now plus the backoff
delay. -/
def requeued (cfg : BackoffConfig) (now : Nat) (b : Batch) : Batch :=
  ⟨b.records, b.retryCount + 1, now + backoffDelay cfg b.retryCount⟩

/-- Modelled from the spec: the Delivery Coordinator state — the Position
Store (identity to last confirmed-delivered offset), the batch currently
in flight, the queue of batches awaiting retry, and the log of records
acknowledged delivered so far. -/
structure CoordState where
  store : Nat → Nat
  inflight : Option Batch
  retryQueue : List Batch
  deliveredLog : List LineRecord

/-- Modelled from the spec, section 4.4: how the coordinator handles the
result of one send attempt for the in-flight batch b.  On Delivered it
commits the Position Store for the whole batch, acknowledges every record,
and discards the batch.  On TransientFailure it re-queues the batch with
an incremented retry count and a backoff-scheduled retry time, leaving the
store untouched.  On PermanentFailure it drops the batch and "the Position
Store is advanced anyway to avoid an infinite resend loop". -/
def handleResult (cfg : BackoffConfig) (now : Nat) (st : CoordState)
    (b : Batch) (res : DeliveryResult) : CoordState :=
  match res with
  | .delivered =>
    ⟨commit st.store b, none, st.retryQueue, st.deliveredLog ++ b.records⟩
  | .transientFailure =>
    ⟨st.store, none, st.retryQueue ++ [requeued cfg now b], st.deliveredLog⟩
  | .permanentFailure =>
    ⟨commit st.store b, none, st.retryQueue, st.deliveredLog⟩

/-- The trace of a run of repeated send attempts for one batch: the retry
counts carried into each attempt, the backoff delays scheduled between
attempts, and the record lists of the batches acknowledged delivered. -/
structure RetryTrace where
  attempts : List Nat
  delays : List Nat
  deliveredBatches : List (List LineRecord)
deriving DecidableEq, Repr

/-- Modelled from the spec: the retry loop for one batch against a
transport, fuelled.  Each attempt consults the transport; a
TransientFailure re-queues the batch with an incremented retry count and
schedules the next attempt after the exponential-backoff delay; Delivered
acknowledges the batch once; PermanentFailure drops it. -/
def runRetry (cfg : BackoffConfig) (transport : Nat → DeliveryResult) :
    Nat → Batch → RetryTrace
  | 0, _ => ⟨[], [], []⟩
  | fuel + 1, b =>
    match transport b.retryCount with
    | .delivered => ⟨[b.retryCount], [], [b.records]⟩
    | .transientFailure =>
      let t := runRetry cfg transport fuel (requeued cfg 0 b)
      ⟨b.retryCount :: t.attempts, backoffDelay cfg b.retryCount :: t.delays,
       t.deliveredBatches⟩
    | .permanentFailure => ⟨[b.retryCount], [], []⟩

/-- A sample position store for concrete instantiations. -/
def sampleStore : Nat → Nat := fun _ => 0

/-- A sample coordinator state over sampleStore. -/
def sampleState : CoordState := ⟨sampleStore, none, [], []⟩

/-- A sample one-record batch for file identity 5 covering bytes 0 to 7. -/
def sampleBatch : Batch := ⟨[⟨5, 0, 7, [97]⟩], 0, 0⟩

/-- A sample backoff configuration with base 1 and cap 4. -/
def sampleConfig : BackoffConfig := ⟨1, 4⟩

/-- Modelled from the spec: the Position Store is "read once at startup to
resume tailing"; resuming at a stored offset delivers the complete lines
of the file content from that offset onwards. -/
def resumeDeliver (content : List Nat) (off : Nat) : List (List Nat) :=
  completeLines (content.drop off)

/-- The provider of the setup function in src/setup.py: setuptools when
its import succeeds, distutils.core as the ImportError fallback. -/
inductive SetupProvider where
  | setuptools
  | distutilsCore
deriving DecidableEq, Repr

/-- The statically known keyword arguments of the setup() call in
src/setup.py that the packaging property concerns.  The remaining
arguments — version, author, url, classifiers, and the description and
requirement fields read from files at run time — do not bear on the
property and are omitted. -/
structure SetupArgs where
  name : String
  packages : List String
  scripts : List String
deriving DecidableEq, Repr

/-- Embedded from src/setup.py lines 10 to 33: the literal arguments of
the single setup() call. -/
def beaverSetupArgs : SetupArgs :=
  ⟨"Beaver", ["beaver", "beaver.tests"], ["bin/beaver"]⟩

/-- Embedded from src/setup.py lines 5 to 8: setup is imported from
setuptools, and from distutils.core when that import raises
ImportError. -/
def importedSetup (setuptoolsAvailable : Bool) : SetupProvider :=
  if setuptoolsAvailable then .setuptools else .distutilsCore

/-- Embedded from src/setup.py: running the module body performs exactly
one setup() call, through whichever provider the import resolved, with the
literal arguments. -/
def setupCalls (setuptoolsAvailable : Bool) : List (SetupProvider × SetupArgs) :=
  [(importedSetup setuptoolsAvailable, beaverSetupArgs)]

theorem splitLines_append (xs ys : List Nat) :
    splitLines (xs ++ ys) =
      ((splitLines xs).1 ++ (splitLines ((splitLines xs).2 ++ ys)).1,
       (splitLines ((splitLines xs).2 ++ ys)).2) := by
  induction xs with
  | nil => simp [splitLines]
  | cons b xs ih =>
    by_cases hb : b = newline
    · simp [splitLines, hb, ih]
    · rcases hx : (splitLines xs).1 with _ | ⟨l, ls⟩
      · rw [List.cons_append]
        show splitLines (b :: (xs ++ ys)) = _
        rw [splitLines, splitLines, ih, hx]
        simp only [hb, if_false, List.nil_append]
        rcases hm : (splitLines ((splitLines xs).2 ++ ys)).1 with _ | ⟨m, ms⟩
        · simp [splitLines, hb, hm]
        · simp [splitLines, hb, hm]
      · rw [List.cons_append]
        show splitLines (b :: (xs ++ ys)) = _
        rw [splitLines, splitLines, ih, hx]
        simp [hb]

theorem completeLines_append (xs ys : List Nat) :
    completeLines (xs ++ ys) =
      completeLines xs ++ completeLines (remainder xs ++ ys) := by
  unfold completeLines remainder
  rw [splitLines_append]

theorem remainder_append (xs ys : List Nat) :
    remainder (xs ++ ys) = remainder (remainder xs ++ ys) := by
  unfold remainder
  rw [splitLines_append]

theorem completeLines_append_of_remainder_nil (xs ys : List Nat)
    (h : remainder xs = []) :
    completeLines (xs ++ ys) = completeLines xs ++ completeLines ys := by
  rw [completeLines_append, h, List.nil_append]

theorem emitted_mkRecords (id start : Nat) (ls : List (List Nat)) :
    emitted (mkRecords id start ls) = ls := by
  induction ls generalizing start with
  | nil => rfl
  | cons l ls ih => simp [mkRecords, emitted] at ih ⊢; exact ih _

theorem map_content_mkRecords (id start : Nat) (ls : List (List Nat)) :
    List.map LineRecord.content (mkRecords id start ls) = ls :=
  emitted_mkRecords id start ls

theorem newline_not_mem_remainder (buf : List Nat) : newline ∉ remainder buf := by
  induction buf with
  | nil => simp [remainder, splitLines]
  | cons b rest ih =>
    unfold remainder splitLines
    by_cases hb : b = newline
    · simpa [hb, remainder] using ih
    · simp only [hb, if_false]
      rcases h1 : (splitLines rest).1 with _ | ⟨l, ls⟩
      · intro hmem
        rcases List.mem_cons.mp hmem with h | h
        · exact hb h.symm
        · exact ih h
      · exact ih

theorem splitLines_of_no_newline (xs : List Nat) (h : newline ∉ xs) :
    splitLines xs = ([], xs) := by
  induction xs with
  | nil => rfl
  | cons b rest ih =>
    have hb : b ≠ newline := fun hb => h (hb ▸ List.mem_cons_self b rest)
    have hrest : newline ∉ rest := fun hm => h (List.mem_cons_of_mem b hm)
    unfold splitLines
    rw [ih hrest]
    simp [fun hx => hb hx]

theorem watchAppends_run (id : Nat) (as : List (List Nat)) :
    ∀ (wf : WatchedFile) (content : List Nat),
      wf.offset = content.length → newline ∉ wf.pending →
      emitted (watchAppends id wf content as).1 =
          completeLines (wf.pending ++ as.flatten)
        ∧ (watchAppends id wf content as).2.pending =
          remainder (wf.pending ++ as.flatten) := by
  induction as with
  | nil =>
    intro wf content _ hp
    have h := splitLines_of_no_newline wf.pending hp
    constructor
    · simp [watchAppends, emitted, completeLines, h]
    · simp [watchAppends, remainder, h]
  | cons a as ih =>
    intro wf content hoff hp
    have hdelta : (content ++ a).drop wf.offset = a := by
      rw [hoff]; exact List.drop_left content a
    have hstep : readDelta wf ⟨id, content ++ a⟩ =
        (⟨wf.ident, (content ++ a).length, remainder (wf.pending ++ a)⟩,
         mkRecords wf.ident (wf.offset - wf.pending.length)
           (completeLines (wf.pending ++ a))) := by
      unfold readDelta
      simp [hdelta, completeLines, remainder]
    have hrec := ih ⟨wf.ident, (content ++ a).length, remainder (wf.pending ++ a)⟩
      (content ++ a) rfl (newline_not_mem_remainder (wf.pending ++ a))
    constructor
    · show emitted ((readDelta wf ⟨id, content ++ a⟩).2 ++ _) = _
      rw [hstep]
      simp only [watchAppends] at hrec ⊢
      rw [emitted, List.map_append, ← emitted, ← emitted, emitted_mkRecords,
        hrec.1, List.flatten_cons, ← List.append_assoc, ← completeLines_append]
    · show (watchAppends id (readDelta wf ⟨id, content ++ a⟩).1 (content ++ a) as).2.pending = _
      rw [hstep]
      simp only [watchAppends] at hrec ⊢
      rw [hrec.2, List.flatten_cons, ← List.append_assoc, ← remainder_append]

/-- C1: for every sequence of appends to a watched file (read after each
append, no failures), the concatenation of the emitted LineRecords, in
order, is exactly the appended byte stream split on line terminators: the
complete lines appear once each, in order (no loss, duplication or
reordering), and the final unterminated tail is exactly the held-back
pending partial line. -/
theorem appends_deliver_split_stream (id : Nat) (as : List (List Nat)) :
    emitted (watchAppends id ⟨id, 0, []⟩ [] as).1 = completeLines as.flatten
      ∧ (watchAppends id ⟨id, 0, []⟩ [] as).2.pending = remainder as.flatten := by
  have h := watchAppends_run id as ⟨id, 0, []⟩ [] rfl (by simp)
  simpa using h

/-- C2: a read of a grown file emits exactly one LineRecord per complete
newline-delimited line of the held-back bytes followed by the delta from
the last offset to the new end; the trailing partial line (which contains
no terminator) is never emitted but is held back in the pending buffer,
and on a subsequent read it is prefixed to the next delta, so the two
reads together emit exactly the complete lines of the combined bytes. -/
theorem readDelta_emits_complete_lines (wf : WatchedFile) (fv : FileView)
    (more : List Nat) :
    emitted (readDelta wf fv).2 =
        completeLines (wf.pending ++ fv.content.drop wf.offset)
      ∧ (readDelta wf fv).1.pending =
        remainder (wf.pending ++ fv.content.drop wf.offset)
      ∧ newline ∉ (readDelta wf fv).1.pending
      ∧ emitted (readDelta wf fv).2
          ++ emitted (readDelta (readDelta wf fv).1 ⟨fv.ident, fv.content ++ more⟩).2
        = completeLines (wf.pending ++ fv.content.drop wf.offset ++ more) := by
  refine ⟨?_, ?_, ?_, ?_⟩
  · rw [readDelta]
    exact emitted_mkRecords _ _ _
  · rfl
  · exact newline_not_mem_remainder _
  · rw [completeLines_append]
    simp [readDelta, emitted_mkRecords, List.drop_left, completeLines, remainder]

/-- C6: after any successful watcher check (which ends in a read), the
stored offset equals, hence never exceeds, the current file size; and
whenever an identity change is detected — rotation (the path's stable
identity differs) or truncation (same identity but the file shrank below
the stored offset) — the watcher state is rebuilt from
resetForNewIdentity, whose offset is 0, before the file is read. -/
theorem offset_le_size_and_reset_on_identity_change
    (wf : WatchedFile) (oldView fv : FileView) :
    (watcherCheck wf oldView fv).1.offset ≤ fv.content.length
      ∧ (resetForNewIdentity fv.ident).offset = 0
      ∧ (fv.ident ≠ wf.ident →
          (watcherCheck wf oldView fv).1 =
            (readDelta (resetForNewIdentity fv.ident) fv).1)
      ∧ (fv.ident = wf.ident → fv.content.length < wf.offset →
          (watcherCheck wf oldView fv).1 =
            (readDelta (resetForNewIdentity fv.ident) fv).1) := by
  refine ⟨?_, rfl, ?_, ?_⟩
  · unfold watcherCheck
    split_ifs <;> simp [readDelta]
  · intro h
    unfold watcherCheck
    simp [h]
  · intro h hlt
    unfold watcherCheck
    simp [h, hlt]

/-- Witness for the reset clauses of C6 at a concrete rotation (identity
1 replaced by 2) and a concrete truncation (identity 1 shrinking from
offset 2 to length 1). -/
theorem offset_le_size_and_reset_witness :
    (watcherCheck ⟨1, 0, []⟩ ⟨1, []⟩ ⟨2, [97]⟩).1.offset ≤ 1
      ∧ (watcherCheck ⟨1, 0, []⟩ ⟨1, []⟩ ⟨2, [97]⟩).1 =
        (readDelta (resetForNewIdentity 2) ⟨2, [97]⟩).1
      ∧ (watcherCheck ⟨1, 2, []⟩ ⟨1, [97, 10]⟩ ⟨1, [98]⟩).1 =
        (readDelta (resetForNewIdentity 1) ⟨1, [98]⟩).1 :=
  ⟨(offset_le_size_and_reset_on_identity_change ⟨1, 0, []⟩ ⟨1, []⟩ ⟨2, [97]⟩).1,
   (offset_le_size_and_reset_on_identity_change ⟨1, 0, []⟩ ⟨1, []⟩
     ⟨2, [97]⟩).2.2.1 (by decide),
   (offset_le_size_and_reset_on_identity_change ⟨1, 2, []⟩ ⟨1, [97, 10]⟩
     ⟨1, [98]⟩).2.2.2 rfl (by decide)⟩

/-- C7: when rotation is detected (the path's identity changed), the check
emits first the pending complete lines still readable from the old
identity — flushed, not lost — then the lines read from the new identity
starting at offset 0, and the resulting state is exactly the fresh state
for the new identity after that first read (old handle and pending
discarded, offset restarted).  When truncation is detected (same identity
but the file shrank below the stored offset), the path is likewise treated
as a new WatchedFile: the check emits the lines read from offset 0 of the
shrunken content and the state is again the fresh-read state; no complete
line can be pending there, the held-back partial being terminator-free
and the old bytes being gone. -/
theorem rotation_flushes_then_restarts_at_zero
    (wf : WatchedFile) (oldView fv : FileView) :
    (fv.ident ≠ wf.ident →
        emitted (watcherCheck wf oldView fv).2 =
            completeLines (wf.pending ++ oldView.content.drop wf.offset)
              ++ completeLines fv.content
          ∧ (watcherCheck wf oldView fv).1 =
            (readDelta (resetForNewIdentity fv.ident) fv).1)
      ∧ (fv.ident = wf.ident → fv.content.length < wf.offset →
          emitted (watcherCheck wf oldView fv).2 = completeLines fv.content
            ∧ (watcherCheck wf oldView fv).1 =
              (readDelta (resetForNewIdentity fv.ident) fv).1)
      ∧ (resetForNewIdentity fv.ident).offset = 0
      ∧ (resetForNewIdentity fv.ident).ident = fv.ident := by
  refine ⟨fun h => ⟨?_, ?_⟩, fun h hlt => ⟨?_, ?_⟩, rfl, rfl⟩
  · unfold watcherCheck
    simp [h, emitted, readDelta, resetForNewIdentity,
      map_content_mkRecords, completeLines]
  · unfold watcherCheck
    simp [h]
  · unfold watcherCheck
    simp [h, hlt, emitted, readDelta, resetForNewIdentity,
      map_content_mkRecords, completeLines]
  · unfold watcherCheck
    simp [h, hlt]

/-- Witness for C7: rotating from identity 1 (holding bytes "x\n" past the
offset) to identity 2 containing "a\n", and truncating identity 1 from
offset 4 down to the two-byte content "b\n". -/
theorem rotation_flushes_witness :
    (emitted (watcherCheck ⟨1, 0, []⟩ ⟨1, [120, 10]⟩ ⟨2, [97, 10]⟩).2 =
        completeLines [120, 10] ++ completeLines [97, 10]
      ∧ (watcherCheck ⟨1, 0, []⟩ ⟨1, [120, 10]⟩ ⟨2, [97, 10]⟩).1 =
        (readDelta (resetForNewIdentity 2) ⟨2, [97, 10]⟩).1)
      ∧ (emitted (watcherCheck ⟨1, 4, []⟩ ⟨1, [120, 10]⟩ ⟨1, [98, 10]⟩).2 =
          completeLines [98, 10]
      ∧ (watcherCheck ⟨1, 4, []⟩ ⟨1, [120, 10]⟩ ⟨1, [98, 10]⟩).1 =
        (readDelta (resetForNewIdentity 1) ⟨1, [98, 10]⟩).1) := by
  have h1 := rotation_flushes_then_restarts_at_zero ⟨1, 0, []⟩ ⟨1, [120, 10]⟩
    ⟨2, [97, 10]⟩
  have h2 := rotation_flushes_then_restarts_at_zero ⟨1, 4, []⟩ ⟨1, [120, 10]⟩
    ⟨1, [98, 10]⟩
  exact ⟨h1.1 (by decide), h2.2.1 rfl (by decide)⟩

theorem drainAux_eq_buf (n : Nat) :
    ∀ q : LineQueue, q.buf.length ≤ n → drainAux n q = q.buf := by
  induction n with
  | zero =>
    intro q h
    rw [List.length_eq_zero.mp (Nat.le_zero.mp h)]
    rfl
  | succ n ih =>
    intro q h
    rcases hb : q.buf with _ | ⟨r, rest⟩
    · simp [drainAux, dequeue, hb]
    · have hlen : rest.length ≤ n := by
        rw [hb] at h
        simpa using h
      have hrec := ih ⟨q.capacity, q.policy, rest⟩ (by simpa using hlen)
      simp [drainAux, dequeue, hb, hrec]

theorem drain_eq_buf (q : LineQueue) : drain q = q.buf :=
  drainAux_eq_buf q.buf.length q (Nat.le_refl _)

theorem enqueue_capacity (q : LineQueue) (r : LineRecord) :
    (enqueue q r).capacity = q.capacity ∧ (enqueue q r).policy = q.policy := by
  unfold enqueue
  split_ifs
  · exact ⟨rfl, rfl⟩
  · cases hp : q.policy <;> simp [hp]

theorem enqueue_length_le (q : LineQueue) (r : LineRecord)
    (hlen : q.buf.length ≤ q.capacity) (hcap : 0 < q.capacity) :
    (enqueue q r).buf.length ≤ q.capacity := by
  unfold enqueue
  split_ifs with h
  · simpa using h
  · cases hp : q.policy
    · simpa [hp] using hlen
    · have hfull : q.buf.length = q.capacity := Nat.le_antisymm hlen (Nat.le_of_not_lt h)
      rcases hb : q.buf with _ | ⟨x, xs⟩
      · exfalso
        rw [hb] at hfull
        simp at hfull
        omega
      · simp only [hp, hb, List.tail_cons, List.length_append, List.length_cons,
          List.length_nil]
        rw [hb] at hfull
        simp at hfull
        omega

theorem enqueue_buf_sublist (q : LineQueue) (r : LineRecord) :
    (enqueue q r).buf.Sublist (q.buf ++ [r]) := by
  unfold enqueue
  split_ifs
  · exact List.Sublist.refl _
  · cases hp : q.policy
    · simp
    · simpa using List.Sublist.append_right (List.tail_sublist q.buf) [r]

theorem enqueueAll_buf_sublist (rs : List LineRecord) :
    ∀ q : LineQueue, (enqueueAll q rs).buf.Sublist (q.buf ++ rs) := by
  induction rs with
  | nil => intro q; simp [enqueueAll]
  | cons r rs ih =>
    intro q
    have h1 : (enqueueAll q (r :: rs)).buf = (enqueueAll (enqueue q r) rs).buf := rfl
    rw [h1]
    refine List.Sublist.trans (ih (enqueue q r)) ?_
    have := List.Sublist.append_right (enqueue_buf_sublist q r) rs
    simpa using this

theorem enqueueAll_no_overflow (rs : List LineRecord) :
    ∀ q : LineQueue, q.buf.length + rs.length ≤ q.capacity →
      (enqueueAll q rs).buf = q.buf ++ rs := by
  induction rs with
  | nil => intro q _; simp [enqueueAll]
  | cons r rs ih =>
    intro q h
    have hlt : q.buf.length < q.capacity := by
      simp at h
      omega
    have hq : enqueue q r = ⟨q.capacity, q.policy, q.buf ++ [r]⟩ := by
      unfold enqueue
      rw [if_pos hlt]
    have h1 : (enqueueAll q (r :: rs)).buf = (enqueueAll (enqueue q r) rs).buf := rfl
    rw [h1, hq, ih _ ?_]
    · simp
    · simp at h ⊢
      omega

/-- C9: the Line Queue is bounded and ordered: occupancy never exceeds a
positive capacity after an enqueue (the full queue either blocks the
producer or drops its oldest record), dequeue yields nothing exactly when
the queue is empty (the consumer blocks until a record is available), a
run of enqueues that never overflows is drained back in exact FIFO order,
and even with overflow drops the drained records of any single file are an
order-preserving subsequence of that file's submissions. -/
theorem lineQueue_bounded_ordered
    (q : LineQueue) (r : LineRecord) (cap : Nat) (pol : OverflowPolicy)
    (rs : List LineRecord) (f : Nat)
    (hlen : q.buf.length ≤ q.capacity) (hcap : 0 < q.capacity) :
    (enqueue q r).buf.length ≤ q.capacity
      ∧ (dequeue q = none ↔ q.buf = [])
      ∧ (rs.length ≤ cap →
          drain (enqueueAll (LineQueue.empty cap pol) rs) = rs)
      ∧ ((drain (enqueueAll (LineQueue.empty cap pol) rs)).filter
            (fun x => x.fileId == f)).Sublist
          (rs.filter (fun x => x.fileId == f)) := by
  refine ⟨enqueue_length_le q r hlen hcap, ?_, ?_, ?_⟩
  · unfold dequeue
    rcases hb : q.buf with _ | ⟨x, xs⟩ <;> simp [hb]
  · intro hrs
    rw [drain_eq_buf, enqueueAll_no_overflow rs (LineQueue.empty cap pol)
      (by simpa [LineQueue.empty] using hrs)]
    simp [LineQueue.empty]
  · rw [drain_eq_buf]
    have := enqueueAll_buf_sublist rs (LineQueue.empty cap pol)
    simp only [LineQueue.empty, List.nil_append] at this
    exact this.filter _

/-- Witness for C9 on a concrete two-record queue of capacity 2. -/
theorem lineQueue_bounded_ordered_witness :
    (enqueue ⟨2, .block, [⟨0, 0, 2, [97]⟩]⟩ ⟨0, 2, 4, [98]⟩).buf.length ≤ 2
      ∧ (dequeue ⟨2, .block, [⟨0, 0, 2, [97]⟩]⟩ = none ↔
          ([⟨0, 0, 2, [97]⟩] : List LineRecord) = [])
      ∧ drain (enqueueAll (LineQueue.empty 2 .block)
            [⟨0, 0, 2, [97]⟩, ⟨0, 2, 4, [98]⟩]) =
          [⟨0, 0, 2, [97]⟩, ⟨0, 2, 4, [98]⟩]
      ∧ ((drain (enqueueAll (LineQueue.empty 2 .block)
            [⟨0, 0, 2, [97]⟩, ⟨0, 2, 4, [98]⟩])).filter
            (fun x => x.fileId == 0)).Sublist
          (([⟨0, 0, 2, [97]⟩, ⟨0, 2, 4, [98]⟩] : List LineRecord).filter
            (fun x => x.fileId == 0)) := by
  have h := lineQueue_bounded_ordered ⟨2, .block, [⟨0, 0, 2, [97]⟩]⟩
    ⟨0, 2, 4, [98]⟩ 2 .block [⟨0, 0, 2, [97]⟩, ⟨0, 2, 4, [98]⟩] 0
    (by decide) (by decide)
  exact ⟨h.1, h.2.1, h.2.2.1 (by decide), h.2.2.2⟩

theorem backoffDelay_mono (cfg : BackoffConfig) (i j : Nat) (hij : i ≤ j) :
    backoffDelay cfg i ≤ backoffDelay cfg j := by
  unfold backoffDelay
  exact min_le_min
    (Nat.mul_le_mul_left cfg.base (Nat.pow_le_pow_right (by norm_num) hij))
    (Nat.le_refl _)

theorem backoffDelay_le_cap (cfg : BackoffConfig) (i : Nat) :
    backoffDelay cfg i ≤ cfg.cap :=
  min_le_right _ _

theorem runRetry_transient_then_delivered (cfg : BackoffConfig) (n : Nat) :
    ∀ (f : Nat) (b : Batch), b.retryCount + f = n →
      runRetry cfg (fun k => if k < n then .transientFailure else .delivered)
          (f + 1) b =
        ⟨List.range' b.retryCount (f + 1), (List.range' b.retryCount f).map
          (backoffDelay cfg), [b.records]⟩ := by
  intro f
  induction f with
  | zero =>
    intro b hb
    simp only [Nat.add_zero] at hb
    simp [runRetry, hb, List.range']
  | succ f ih =>
    intro b hb
    have hlt : b.retryCount < n := by omega
    have hrec := ih (requeued cfg 0 b) (by simp [requeued]; omega)
    conv_lhs => rw [runRetry]
    rw [if_pos hlt]
    show RetryTrace.mk
        (b.retryCount :: (runRetry cfg _ (f + 1) (requeued cfg 0 b)).attempts)
        (backoffDelay cfg b.retryCount ::
          (runRetry cfg _ (f + 1) (requeued cfg 0 b)).delays)
        (runRetry cfg _ (f + 1) (requeued cfg 0 b)).deliveredBatches = _
    rw [hrec]
    simp [requeued, List.range'_succ]

/-- C3 as stated is refuted at this input: on a PermanentFailure — a
non-Delivered result — the coordinator advances the Position Store for the
whole batch (spec section 4.4 advances it "anyway" to avoid an infinite
resend loop), so the stored offset for identity 5 changes from 0 to 7. -/
theorem permanent_failure_advances_store :
    (handleResult sampleConfig 0 sampleState sampleBatch
        .permanentFailure).store 5 ≠ sampleState.store 5 := by
  decide

/-- C3 amended: send remains all-or-nothing from the caller's perspective —
for every result the store is advanced either for the entire batch or for
no identity at all (never partially), the batch's records are acknowledged
delivered in full exactly on a Delivered result and not at all otherwise —
but offsets are left unchanged only on TransientFailure; on
PermanentFailure the store advances for the whole batch even though
nothing was delivered. -/
theorem send_all_or_nothing (cfg : BackoffConfig) (now : Nat)
    (st : CoordState) (b : Batch) (res : DeliveryResult) :
    ((∀ id, (handleResult cfg now st b res).store id = commit st.store b id)
        ∨ (∀ id, (handleResult cfg now st b res).store id = st.store id))
      ∧ (res = .transientFailure →
          ∀ id, (handleResult cfg now st b res).store id = st.store id)
      ∧ (res = .delivered →
          (handleResult cfg now st b res).deliveredLog
            = st.deliveredLog ++ b.records)
      ∧ (res ≠ .delivered →
          (handleResult cfg now st b res).deliveredLog = st.deliveredLog) := by
  cases res <;> simp [handleResult]

/-- Witness for C3 (amended) at concrete failure results: a
TransientFailure leaves the sample store untouched at identity 5 and a
PermanentFailure acknowledges nothing. -/
theorem send_all_or_nothing_witness :
    (handleResult sampleConfig 0 sampleState sampleBatch
        .transientFailure).store 5 = sampleState.store 5
      ∧ (handleResult sampleConfig 0 sampleState sampleBatch
        .permanentFailure).deliveredLog = sampleState.deliveredLog :=
  ⟨(send_all_or_nothing sampleConfig 0 sampleState sampleBatch
      .transientFailure).2.1 rfl 5,
   (send_all_or_nothing sampleConfig 0 sampleState sampleBatch
      .permanentFailure).2.2.2 (by decide)⟩

/-- C4: on a Delivered result the coordinator sets the Position Store
entry of every identity the batch touches to the maximum offset the batch
covers for that identity, leaves every identity not in the batch
unchanged, appends the whole batch to the delivered log, and discards the
batch — nothing remains in flight and nothing is re-queued. -/
theorem delivered_commits_max_offsets (cfg : BackoffConfig) (now : Nat)
    (st : CoordState) (b : Batch) :
    (∀ id, b.touches id = true →
        (handleResult cfg now st b .delivered).store id = b.maxOffset id)
      ∧ (∀ id, b.touches id = false →
        (handleResult cfg now st b .delivered).store id = st.store id)
      ∧ (handleResult cfg now st b .delivered).inflight = none
      ∧ (handleResult cfg now st b .delivered).retryQueue = st.retryQueue
      ∧ (handleResult cfg now st b .delivered).deliveredLog
          = st.deliveredLog ++ b.records := by
  refine ⟨?_, ?_, rfl, rfl, rfl⟩
  · intro id h
    simp [handleResult, commit, h]
  · intro id h
    simp [handleResult, commit, h]

/-- Witness for C4: committing the sample batch sets identity 5 (touched,
maximum covered offset 7) and leaves identity 3 (untouched) at its old
value. -/
theorem delivered_commits_max_offsets_witness :
    (handleResult sampleConfig 0 sampleState sampleBatch .delivered).store 5
        = sampleBatch.maxOffset 5
      ∧ (handleResult sampleConfig 0 sampleState sampleBatch .delivered).store 3
        = sampleState.store 3 :=
  ⟨(delivered_commits_max_offsets sampleConfig 0 sampleState sampleBatch).1
      5 (by decide),
   (delivered_commits_max_offsets sampleConfig 0 sampleState sampleBatch).2.1
      3 (by decide)⟩

/-- C5: against a transport that fails transiently on the first n attempts
and delivers on attempt n+1, a batch started at retry count 0 is attempted
with retry counts 0, 1, ..., n — each re-queue incrementing the count by
one — its records are acknowledged delivered exactly once and in full
(none lost, no second delivery), and the backoff delays scheduled between
attempts form the exponential schedule, which is non-decreasing and never
exceeds the configured cap. -/
theorem transient_retries_deliver_once (cfg : BackoffConfig) (n : Nat)
    (recs : List LineRecord) (t0 : Nat) :
    runRetry cfg (fun k => if k < n then .transientFailure else .delivered)
        (n + 1) ⟨recs, 0, t0⟩ =
      ⟨List.range (n + 1), (List.range n).map (backoffDelay cfg), [recs]⟩
      ∧ (∀ i j, i ≤ j → backoffDelay cfg i ≤ backoffDelay cfg j)
      ∧ (∀ i, backoffDelay cfg i ≤ cfg.cap) := by
  refine ⟨?_, backoffDelay_mono cfg, backoffDelay_le_cap cfg⟩
  have h := runRetry_transient_then_delivered cfg n n ⟨recs, 0, t0⟩ (by simp)
  simpa [List.range_eq_range'] using h

/-- Witness for C5 with two transient failures before success: three
attempts at retry counts 0, 1, 2, delays 1 then 2 (both within the cap 4),
and a single delivery of the full record list. -/
theorem transient_retries_deliver_once_witness :
    runRetry sampleConfig
        (fun k => if k < 2 then .transientFailure else .delivered) 3
        ⟨[⟨5, 0, 7, [97]⟩], 0, 0⟩ =
      ⟨List.range 3, (List.range 2).map (backoffDelay sampleConfig),
       [[⟨5, 0, 7, [97]⟩]]⟩
      ∧ backoffDelay sampleConfig 1 ≤ backoffDelay sampleConfig 2
      ∧ backoffDelay sampleConfig 9 ≤ sampleConfig.cap :=
  ⟨(transient_retries_deliver_once sampleConfig 2 [⟨5, 0, 7, [97]⟩] 0).1,
   (transient_retries_deliver_once sampleConfig 2 [⟨5, 0, 7, [97]⟩] 0).2.1
      1 2 (by decide),
   (transient_retries_deliver_once sampleConfig 2 [⟨5, 0, 7, [97]⟩] 0).2.2 9⟩

/-- C8: restart is idempotent with respect to confirmed delivery.  Write
the file as pre ++ mid ++ post with the batch covering the bytes of mid
(which ends at a line boundary).  Committing the batch — for instance a
single record covering exactly those bytes — stores offset pre.length +
mid.length; a crash after the commit makes the restart redeliver only the
lines of post, none of the batch's lines, while a crash before the commit
leaves the store at pre.length and the restart redelivers the batch's
lines exactly once more, followed by the rest. -/
theorem restart_idempotent (pre mid post : List Nat)
    (h : remainder mid = []) :
    resumeDeliver (pre ++ mid ++ post) (pre.length + mid.length)
        = completeLines post
      ∧ resumeDeliver (pre ++ mid ++ post) pre.length
        = completeLines mid ++ completeLines post
      ∧ ∀ (store : Nat → Nat) (fid t0 : Nat) (l : List Nat),
          commit store ⟨[⟨fid, pre.length, pre.length + mid.length, l⟩], 0, t0⟩
            fid = pre.length + mid.length := by
  refine ⟨?_, ?_, ?_⟩
  · unfold resumeDeliver
    have hd := List.drop_left (pre ++ mid) post
    rw [List.length_append] at hd
    rw [hd]
  · unfold resumeDeliver
    rw [List.append_assoc, List.drop_left pre (mid ++ post),
      completeLines_append_of_remainder_nil mid post h]
  · intro store fid t0 l
    simp [commit, Batch.touches, Batch.maxOffset]

/-- Witness for C8 on the file "a\nb\nc\n" with the batch covering the
middle line "b\n": after commit (offset 4) only "c" is redelivered; before
commit (offset 2) "b" then "c" are redelivered. -/
theorem restart_idempotent_witness :
    resumeDeliver [97, 10, 98, 10, 99, 10] (2 + 2) = completeLines [99, 10]
      ∧ resumeDeliver [97, 10, 98, 10, 99, 10] 2
        = completeLines [98, 10] ++ completeLines [99, 10]
      ∧ commit sampleStore ⟨[⟨5, 2, 2 + 2, [98]⟩], 0, 0⟩ 5 = 2 + 2 := by
  have h := restart_idempotent [97, 10] [98, 10] [99, 10] (by decide)
  exact ⟨h.1, h.2.1, h.2.2 sampleStore 5 0 [98]⟩

/-- C10: in every environment — whether the setuptools import succeeds or
raises ImportError, in which case distutils.core.setup is used — the
packaging script invokes setup() exactly once, passing name Beaver,
packages beaver and beaver.tests, and scripts bin/beaver. -/
theorem setup_called_once_with_fixed_args (env : Bool) :
    (setupCalls env).length = 1
      ∧ setupCalls env =
        [(if env then .setuptools else .distutilsCore, beaverSetupArgs)]
      ∧ beaverSetupArgs.name = "Beaver"
      ∧ beaverSetupArgs.packages = ["beaver", "beaver.tests"]
      ∧ beaverSetupArgs.scripts = ["bin/beaver"] := by
  cases env <;> exact ⟨rfl, rfl, rfl, rfl, rfl⟩

end Beaver
